import Mathlib

set_option maxRecDepth 4000
set_option autoImplicit false

/-!
Verification development for the memory-system core.

Shallow embedding of the Rust sources under `memory-core/src`:
`types.rs`, `storage/schema.rs`, `utils.rs`, `retrieval/vector.rs`,
`retrieval/mod.rs`, `graph/mod.rs`, `embedding/client.rs`, `lib.rs`.

Modelling conventions:
* UUIDs appear in the code only through equality, hashing, and the
  `to_string` / `parse_str` round trip (which is the identity on the valid
  UUIDs the code produces), so they are modelled by `String`.
* `f32` values whose exact arithmetic matters only through equality and
  order are modelled by `ℚ` (every `f32` is a rational); the scoring
  formula that uses `ln` is modelled over `ℝ`.
* `serde_json::Value` is modelled by the inductive `Json`; serialising a
  value to a string and parsing it back is the identity on JSON trees, so
  the `metadata` column holds a `Json` value directly.
* Machine integers: `u32` is a `Nat` together with the bound `< 2^32`
  where a cast can truncate; `i64` is `Int`.
-/

/-- JSON values, mirroring `serde_json::Value`. Object keys built by the
code are distinct, and lookup returns the value of the first matching key. -/
inductive Json where
  | null : Json
  | bool (b : Bool) : Json
  | num (n : Int) : Json
  | str (s : String) : Json
  | arr (xs : List Json) : Json
  | obj (fields : List (String × Json)) : Json

/-- `Value::get(key)` on an object: first field with the given key. -/
def Json.get : Json → String → Option Json
  | .obj fields, key => fields.lookup key
  | _, _ => none

/-- `Value::as_str`. -/
def Json.as_str : Json → Option String
  | .str s => some s
  | _ => none

/-- `Value::as_u64` (only non-negative integers succeed). -/
def Json.as_u64 : Json → Option Nat
  | .num n => if 0 ≤ n then some n.toNat else none
  | _ => none

/-- `Value::as_i64`. -/
def Json.as_i64 : Json → Option Int
  | .num n => some n
  | _ => none

/-- `Value::is_null`. -/
def Json.is_null : Json → Bool
  | .null => true
  | _ => false

/-- UUIDs modelled by their string form (see header). -/
abbrev Uuid := String

/-- `EntityType` from `types.rs`. -/
inductive EntityType where
  | person | place | object | time | other
deriving DecidableEq

/-- `NodeData` from `types.rs`: the tagged variant payload of a node. -/
inductive NodeData where
  | entity (entity_type : EntityType) (attributes : Option Json)
  | event (participants : List Uuid) (event_time : String)
      (source_conversation_id : Option String)
  | concept (instance_count : Nat) (last_used_at : Int)

/-- `NodeType` from `types.rs`. -/
inductive NodeType where
  | entity | event | concept
deriving DecidableEq

/-- `MemoryNode` from `types.rs`. -/
structure MemoryNode where
  id : Uuid
  content : String
  embedding : List ℚ
  importance : ℚ
  access_count : Nat
  created_at : Int
  updated_at : Int
  data : NodeData

/-- `MemoryNode::node_type`: the kind is derived from the variant. -/
def MemoryNode.node_type (n : MemoryNode) : NodeType :=
  match n.data with
  | .entity _ _ => .entity
  | .event _ _ _ => .event
  | .concept _ _ => .concept

/-- `Edge` from `types.rs`. -/
structure Edge where
  id : Uuid
  source : Uuid
  target : Uuid
  relation : String
  weight : ℚ
  created_at : Int
  metadata : Option Json

/-- `EdgeRecord` from `storage/schema.rs` (one row of the edges table;
note it has no metadata column). -/
structure EdgeRecord where
  id : Uuid
  source_id : Uuid
  target_id : Uuid
  relation : String
  weight : ℚ
  created_at : Int

/-- `EdgeRecord::from_edge`. -/
def EdgeRecord.from_edge (e : Edge) : EdgeRecord :=
  { id := e.id
    source_id := e.source
    target_id := e.target
    relation := e.relation
    weight := e.weight
    created_at := e.created_at }

/-- `EdgeRecord::to_edge`: rebuilds the edge; the metadata field is always
`None` because the record does not carry it. -/
def EdgeRecord.to_edge (r : EdgeRecord) : Edge :=
  { id := r.id
    source := r.source_id
    target := r.target_id
    relation := r.relation
    weight := r.weight
    created_at := r.created_at
    metadata := none }

/-- A concrete edge carrying JSON metadata, used to exhibit the loss of
the metadata field across the record round trip. -/
def edgeWithMeta : Edge :=
  { id := "e1", source := "a", target := "b", relation := "knows",
    weight := 1, created_at := 100,
    metadata := some (Json.str "extra") }

/-- `VECTOR_DIM` from `storage/schema.rs`. -/
def VECTOR_DIM : Nat := 1024

/-- `NodeRecord` from `storage/schema.rs` (one row of the nodes table).
The `metadata` column is a JSON string; it is modelled by its parsed JSON
tree since serialising and re-parsing is the identity on JSON trees. -/
structure NodeRecord where
  id : Uuid
  node_type : String
  content : String
  vector : List ℚ
  importance : ℚ
  access_count : Nat
  event_time : Option String
  created_at : Int
  updated_at : Int
  metadata : Json

/-- serde serialisation of `EntityType` (`rename_all = "lowercase"`). -/
def encEntityType : EntityType → Json
  | .person => .str "person"
  | .place => .str "place"
  | .object => .str "object"
  | .time => .str "time"
  | .other => .str "other"

/-- serde deserialisation of `EntityType` (`from_value`). -/
def decEntityType : Json → Option EntityType
  | .str "person" => some .person
  | .str "place" => some .place
  | .str "object" => some .object
  | .str "time" => some .time
  | .str "other" => some .other
  | _ => none

/-- serde serialisation of `Option<T>`: `None` becomes JSON null. -/
def encOptJson : Option Json → Json
  | none => .null
  | some v => v

/-- serde serialisation of `Option<String>`. -/
def encOptStr : Option String → Json
  | none => .null
  | some s => .str s

/-- Element-wise string decoding of a JSON array (all-or-nothing, as in
serde). -/
def decStrList : List Json → Option (List Uuid)
  | [] => some []
  | x :: xs =>
      match x.as_str, decStrList xs with
      | some s, some rest => some (s :: rest)
      | _, _ => none

/-- serde deserialisation of `Vec<Uuid>` (a JSON array of UUID strings;
UUID parsing is the identity in this model). -/
def decUuidList : Json → Option (List Uuid)
  | .arr xs => decStrList xs
  | _ => none

/-- The all-zero check on the stored vector in `NodeRecord::to_node`
(`self.vector.iter().all(|&v| v == 0.0)`). -/
def allZeroQ (v : List ℚ) : Bool :=
  v.all fun x => x == 0

/-- The vector written into a `NodeRecord` by `NodeRecord::from_node`:
an empty embedding becomes the all-zero 1024-vector, anything else is
copied unchanged. -/
def recordVector (emb : List ℚ) : List ℚ :=
  if emb = [] then List.replicate VECTOR_DIM 0 else emb

/-- The vector column written by `nodes_to_batch`: a vector of length
other than 1024 is replaced by the all-zero 1024-vector. -/
def batchVector (v : List ℚ) : List ℚ :=
  if v.length = VECTOR_DIM then v else List.replicate VECTOR_DIM 0

/-- The embedding reconstructed by `NodeRecord::to_node`: an all-zero
stored vector is read back as the empty (unembedded) sentinel. -/
def readEmbedding (v : List ℚ) : List ℚ :=
  if allZeroQ v then [] else v

/-- `NodeRecord::from_node`. -/
def NodeRecord.from_node (node : MemoryNode) : NodeRecord :=
  let node_type_str :=
    match node.node_type with
    | .entity => "entity"
    | .event => "event"
    | .concept => "concept"
  let etMeta :
      Option String × Json :=
    match node.data with
    | .entity entity_type attributes =>
        (none, .obj [("entity_type", encEntityType entity_type),
                     ("attributes", encOptJson attributes)])
    | .event participants event_time source_conversation_id =>
        (some event_time,
         .obj [("participants", .arr (participants.map Json.str)),
               ("source_conversation_id", encOptStr source_conversation_id)])
    | .concept instance_count last_used_at =>
        (none, .obj [("instance_count", .num instance_count),
                     ("last_used_at", .num last_used_at)])
  { id := node.id
    node_type := node_type_str
    content := node.content
    vector := recordVector node.embedding
    importance := node.importance
    access_count := node.access_count
    event_time := etMeta.1
    created_at := node.created_at
    updated_at := node.updated_at
    metadata := etMeta.2 }

/-- `NodeRecord::to_node`. The Rust function first parses the metadata
JSON string and can fail there; in this model the metadata is already a
JSON tree, which is the only failure point, so the function is total. -/
def NodeRecord.to_node (r : NodeRecord) : MemoryNode :=
  let data : NodeData :=
    match r.node_type with
    | "entity" =>
        .entity (((r.metadata.get "entity_type").bind decEntityType).getD .other)
          ((r.metadata.get "attributes").bind fun v =>
            if v.is_null then none else some v)
    | "event" =>
        .event (((r.metadata.get "participants").bind decUuidList).getD [])
          (r.event_time.getD "")
          ((r.metadata.get "source_conversation_id").bind Json.as_str)
    | "concept" =>
        .concept ((((r.metadata.get "instance_count").bind Json.as_u64).map
              (fun v => v % 2 ^ 32)).getD 1)
          (((r.metadata.get "last_used_at").bind Json.as_i64).getD 0)
    | _ => .entity .other none
  { id := r.id
    content := r.content
    embedding := readEmbedding r.vector
    importance := r.importance
    access_count := r.access_count
    created_at := r.created_at
    updated_at := r.updated_at
    data := data }

/-- A concrete entity node whose 1024-dimensional embedding is entirely
zero: the round trip collapses it to the unembedded sentinel. -/
def zeroEmbeddingNode : MemoryNode :=
  { id := "n1", content := "张三", embedding := List.replicate 1024 0,
    importance := 1/2, access_count := 0, created_at := 10, updated_at := 10,
    data := .entity .person none }

/-- The entity-attributes field survives the JSON round trip unless it is
`Some(Value::Null)` (which serde collapses to `None`). -/
def attrOk : NodeData → Prop
  | .entity _ attributes => attributes ≠ some Json.null
  | _ => True

/-- A `u32` field fits in 32 bits (a type invariant of the Rust source,
needed because `as u32` truncates). -/
def countOk : NodeData → Prop
  | .concept instance_count _ => instance_count < 2 ^ 32
  | _ => True

/-- A concrete event node with an empty embedding, used as a round-trip
witness. -/
def eventNodeEx : MemoryNode :=
  { id := "n2", content := "用户说：去北京", embedding := [],
    importance := 2/5, access_count := 3, created_at := 20, updated_at := 21,
    data := .event ["n1"] "2026-01-15-10-30" (some "conv7") }

/-- `calculate_recency` from `utils.rs`, over exact rationals; the Rust
function reads the current time itself, so `now` is a parameter here.
All times are Unix seconds. -/
def calculate_recency (now timestamp : Int) : ℚ :=
  let diff_secs : Int := max (now - timestamp) 0
  let one_week_secs : Int := 7 * 24 * 60 * 60
  let thirty_days_secs : Int := 30 * 24 * 60 * 60
  if diff_secs ≤ one_week_secs then 1
  else if diff_secs ≤ thirty_days_secs then
    let decay_range : ℚ := ((thirty_days_secs - one_week_secs : Int) : ℚ)
    let decay_progress : ℚ :=
      ((diff_secs - one_week_secs : Int) : ℚ) / decay_range
    1 - (9 / 10) * decay_progress
  else 1 / 10

/-- `Message` from `types.rs`. -/
structure Message where
  role : String
  content : String
  timestamp : Option Int

/-- The fields of an event node produced by `messages_to_events` that are
determined by the input (the freshly generated UUID and the
created/updated clock stamps are nondeterministic and omitted). -/
structure EventFields where
  content : String
  importance : ℚ
  event_time : String

/-- The importance bucket from `messages_to_events` in `lib.rs`
(`msg.content.len()` is the UTF-8 byte length). -/
def eventImportance (len : Nat) : ℚ :=
  if len > 200 then 8 / 10 else if len > 50 then 6 / 10 else 4 / 10

/-- One event node from a user message and its optional immediate
assistant reply, as built in the loop body of `messages_to_events`.
`fmtTs` models `chrono::DateTime::from_timestamp(ts, 0)` followed by
formatting (`None` when the timestamp is unrepresentable); `now_time`
models `utils::now_event_time()`. -/
def mkEventFields (fmtTs : Int → Option String) (now_time : String)
    (m : Message) (reply : Option Message) : EventFields :=
  { content :=
      match reply with
      | some r => "用户说：" ++ m.content ++ "\n回复：" ++ r.content
      | none => "用户说：" ++ m.content
    importance := eventImportance m.content.utf8ByteSize
    event_time :=
      (m.timestamp.map fun ts => (fmtTs ts).getD now_time).getD now_time }

/-- `MemorySystem::messages_to_events` from `lib.rs`: the index-based
while loop rendered as structural recursion (the loop advances by 2 when
a user message is followed by an assistant reply, else by 1). -/
def messages_to_events (fmtTs : Int → Option String) (now_time : String) :
    List Message → List EventFields
  | [] => []
  | [m] =>
      if m.role = "user" then [mkEventFields fmtTs now_time m none] else []
  | m :: r :: rest2 =>
      if m.role = "user" then
        if r.role = "assistant" then
          mkEventFields fmtTs now_time m (some r) ::
            messages_to_events fmtTs now_time rest2
        else
          mkEventFields fmtTs now_time m none ::
            messages_to_events fmtTs now_time (r :: rest2)
      else messages_to_events fmtTs now_time (r :: rest2)

/-- Transcribed from the words of claim C5: scan left to right and pair
each user message with its immediately following assistant message, if
any; non-user messages not in such a pair yield nothing. -/
def pairUserMessages : List Message → List (Message × Option Message)
  | [] => []
  | [m] => if m.role = "user" then [(m, none)] else []
  | m :: r :: rest2 =>
      if m.role = "user" then
        if r.role = "assistant" then (m, some r) :: pairUserMessages rest2
        else (m, none) :: pairUserMessages (r :: rest2)
      else pairUserMessages (r :: rest2)

/-- Transcribed from the words of claim C5: the event for a user message
and its optional reply, with the importance buckets stated with `≤` as in
the claim (length at most 50 gives 0.4, at most 200 gives 0.6, more
gives 0.8). -/
def specEventFields (fmtTs : Int → Option String) (now_time : String)
    (m : Message) (reply : Option Message) : EventFields :=
  { content :=
      match reply with
      | some r => "用户说：" ++ m.content ++ "\n回复：" ++ r.content
      | none => "用户说：" ++ m.content
    importance :=
      if m.content.utf8ByteSize ≤ 50 then 4 / 10
      else if m.content.utf8ByteSize ≤ 200 then 6 / 10
      else 8 / 10
    event_time :=
      (m.timestamp.map fun ts => (fmtTs ts).getD now_time).getD now_time }

/-- `cosine_similarity` from `retrieval/vector.rs`, over `ℝ` (the single
fold accumulating the dot product and both squared norms is written as
three sums). -/
noncomputable def cosine_similarity (a b : List ℝ) : ℝ :=
  if a.length ≠ b.length ∨ a = [] then 0
  else
    let dot_product := ((a.zip b).map fun p => p.1 * p.2).sum
    let norm_a := Real.sqrt ((a.map fun x => x * x).sum)
    let norm_b := Real.sqrt ((b.map fun x => x * x).sum)
    if norm_a = 0 ∨ norm_b = 0 then 0
    else dot_product / (norm_a * norm_b)

/-- `RetrievalService::calculate_node_weight` from `retrieval/mod.rs`.
The node's rational-valued fields are cast into `ℝ`; `now` is the clock
read inside `calculate_recency`. -/
noncomputable def calculate_node_weight (now : Int) (node : MemoryNode)
    (query_embedding : List ℚ) (custom_ids : Finset Uuid) : ℝ :=
  let similarity : ℝ :=
    if node.embedding ≠ [] then
      cosine_similarity (node.embedding.map fun q => (q : ℝ))
        (query_embedding.map fun q => (q : ℝ))
    else 0
  let recency : ℝ := ((calculate_recency now node.updated_at : ℚ) : ℝ)
  let importance : ℝ :=
    if node.id ∈ custom_ids then min ((node.importance : ℝ) + 3 / 10) 1
    else (node.importance : ℝ)
  let access_freq : ℝ :=
    min (Real.log ((node.access_count : ℝ) + 1) / 10) 1
  (4 / 10) * similarity + (2 / 10) * recency + (25 / 100) * importance
    + (15 / 100) * access_freq

/-- Transcribed from the words of claim C4: `sim` is the cosine
similarity of the query embedding and the node embedding when the node
embedding is non-empty, else 0. -/
noncomputable def specSim (node : MemoryNode) (query_embedding : List ℚ) : ℝ :=
  if node.embedding = [] then 0
  else
    cosine_similarity (query_embedding.map fun q => (q : ℝ))
      (node.embedding.map fun q => (q : ℝ))

/-- Transcribed from the words of claim C4:
`importance' = min(1, importance + 0.3)` for custom-marked nodes. -/
noncomputable def specImportance (node : MemoryNode)
    (custom_ids : Finset Uuid) : ℝ :=
  if node.id ∈ custom_ids then min 1 ((node.importance : ℝ) + 3 / 10)
  else (node.importance : ℝ)

/-- Transcribed from the words of claim C4:
`freq = min(1, ln(access_count + 1) / 10)`. -/
noncomputable def specFreq (node : MemoryNode) : ℝ :=
  min 1 (Real.log ((node.access_count : ℝ) + 1) / 10)

/-- One edge of the in-memory `petgraph` digraph: endpoint node indices
(`NodeIndex` values) and the full `Edge` payload. -/
structure GEdge where
  src : Nat
  tgt : Nat
  val : Edge

/-- `KnowledgeGraph` from `graph/mod.rs`: a `petgraph` `DiGraph` whose
node weights are UUIDs (`nodes`, indexed by position), an edge list, and
the `id_to_index` map (modelled as an association list; the `HashMap`'s
insert-overwrites semantics and this list's first-match lookup agree on
the duplicate-free node lists the code maintains). -/
structure KnowledgeGraph where
  nodes : List Uuid
  edges : List GEdge
  idToIndex : List (Uuid × Nat)

/-- `KnowledgeGraph::new`. -/
def KnowledgeGraph.empty : KnowledgeGraph := ⟨[], [], []⟩

/-- `KnowledgeGraph::add_node`: idempotent; returns the node's index. -/
def KnowledgeGraph.add_node (g : KnowledgeGraph) (id : Uuid) :
    KnowledgeGraph × Nat :=
  match g.idToIndex.lookup id with
  | some idx => (g, idx)
  | none =>
      ({ nodes := g.nodes ++ [id], edges := g.edges,
         idToIndex := g.idToIndex ++ [(id, g.nodes.length)] },
       g.nodes.length)

/-- `KnowledgeGraph::add_edge`: creates missing endpoints, then appends
the edge. -/
def KnowledgeGraph.add_edge (g : KnowledgeGraph) (e : Edge) :
    KnowledgeGraph :=
  let p1 := g.add_node e.source
  let p2 := p1.1.add_node e.target
  { p2.1 with edges := p2.1.edges ++ [⟨p1.2, p2.2, e⟩] }

/-- `KnowledgeGraph::add_edges`. -/
def KnowledgeGraph.add_edges (g : KnowledgeGraph) (es : List Edge) :
    KnowledgeGraph :=
  es.foldl KnowledgeGraph.add_edge g

/-- `rebuild_index` from `graph/mod.rs`: the map from each node weight to
its index, in index order. -/
def buildIndexAux : Nat → List Uuid → List (Uuid × Nat)
  | _, [] => []
  | k, u :: us => (u, k) :: buildIndexAux (k + 1) us

/-- `rebuild_index`, starting at index 0. -/
def buildIndex (nodes : List Uuid) : List (Uuid × Nat) :=
  buildIndexAux 0 nodes

/-- `petgraph`'s swap-remove of the node at `idx`: the last node moves
into position `idx` and the vector shrinks by one. -/
def swapRemoveNodes (nodes : List Uuid) (idx : Nat) : List Uuid :=
  (nodes.set idx (nodes.getD (nodes.length - 1) "")).dropLast

/-- Endpoint renumbering induced by the swap-remove: the old last index
becomes `idx`. -/
def renumberEndpoint (last idx n : Nat) : Nat :=
  if n = last then idx else n

/-- `KnowledgeGraph::remove_node`: drop the id from the map, remove the
node and all incident edges with `petgraph`'s swap-remove renumbering,
then rebuild the id-to-index map from scratch. -/
def KnowledgeGraph.remove_node (g : KnowledgeGraph) (id : Uuid) :
    KnowledgeGraph :=
  match g.idToIndex.lookup id with
  | none => g
  | some idx =>
      let last := g.nodes.length - 1
      let kept := g.edges.filter fun e =>
        decide (e.src ≠ idx) && decide (e.tgt ≠ idx)
      let newEdges := kept.map fun e =>
        ⟨renumberEndpoint last idx e.src, renumberEndpoint last idx e.tgt,
         e.val⟩
      let newNodes := swapRemoveNodes g.nodes idx
      { nodes := newNodes, edges := newEdges,
        idToIndex := buildIndex newNodes }

/-- `KnowledgeGraph::contains_node`. -/
def KnowledgeGraph.contains_node (g : KnowledgeGraph) (id : Uuid) : Bool :=
  (g.idToIndex.lookup id).isSome

/-- The graph invariants the code maintains: node weights are distinct,
the map is exactly the rebuilt index, and edge endpoints are valid
indices. -/
def KnowledgeGraph.WellFormed (g : KnowledgeGraph) : Prop :=
  g.nodes.Nodup ∧ g.idToIndex = buildIndex g.nodes ∧
    ∀ e ∈ g.edges, e.src < g.nodes.length ∧ e.tgt < g.nodes.length

/-- `neighbors_undirected` lifted to a set of indices: every endpoint
opposite an endpoint in `S`, over all edges. -/
def undirectedNeighbors (es : List GEdge) (S : Finset Nat) : Finset Nat :=
  es.foldr (fun e acc =>
    ((if e.src ∈ S then {e.tgt} else ∅) ∪
      (if e.tgt ∈ S then {e.src} else ∅)) ∪ acc) ∅

/-- The node weights (`node_weight`) of a set of indices. -/
def weightSet (g : KnowledgeGraph) (S : Finset Nat) : Finset Uuid :=
  S.biUnion fun n => (g.nodes.get? n).elim ∅ (fun u => {u})

/-- The filter applied to a candidate neighbor index inside
`get_neighbors`: its weight exists and has not been visited. -/
def freshIdx (g : KnowledgeGraph) (visited : Finset Uuid) (n : Nat) : Bool :=
  match g.nodes.get? n with
  | some u => decide (u ∉ visited)
  | none => false

/-- The frontier-expansion loop of `KnowledgeGraph::get_neighbors`
(`for _ in 0..hops`, with early break on an empty next level). The
`HashSet`s become `Finset`s; on the duplicate-free node lists the code
maintains, iteration order is immaterial. -/
def bfsLoop (g : KnowledgeGraph) : Nat → Finset Nat → Finset Uuid →
    Finset Uuid
  | 0, _, visited => visited
  | hops + 1, cur, visited =>
      let next := (undirectedNeighbors g.edges cur).filter fun n =>
        freshIdx g visited n = true
      let visited2 := visited ∪ weightSet g next
      if next = ∅ then visited2 else bfsLoop g hops next visited2

/-- `KnowledgeGraph::get_neighbors`. -/
def KnowledgeGraph.get_neighbors (g : KnowledgeGraph) (id : Uuid)
    (hops : Nat) : Finset Uuid :=
  match g.idToIndex.lookup id with
  | none => ∅
  | some startIdx => bfsLoop g hops {startIdx} {id}

/-- One step of undirected reachability on index sets. -/
def stepIdx (es : List GEdge) (S : Finset Nat) : Finset Nat :=
  S ∪ undirectedNeighbors es S

/-- Indices within `k` undirected edges of `S`. -/
def ballIdx (es : List GEdge) (k : Nat) (S : Finset Nat) : Finset Nat :=
  (stepIdx es)^[k] S

/-- The body of one embedding HTTP response, as far as `send_request`
inspects it. -/
inductive ResponseBody where
  | unparsable
  | parsed (data : List (Nat × List ℚ))

/-- The outcome of one embedding HTTP attempt. -/
inductive HttpOutcome where
  | transportErr
  | response (status : Nat) (body : ResponseBody)

/-- The distinct `MemoryError::Embedding(..)` messages produced by the
embedding client, told apart by their message text. -/
inductive EmbError where
  | notLoggedIn
  | requestFailed
  | apiFailed (status : Nat)
  | parseFailed
  | emptyData
  | unknown
deriving DecidableEq

/-- Stable insertion by response index (`sort_by_key(|item| item.index)`). -/
def insertByIdx (x : Nat × List ℚ) :
    List (Nat × List ℚ) → List (Nat × List ℚ)
  | [] => [x]
  | y :: ys => if y.1 ≤ x.1 then y :: insertByIdx x ys else x :: y :: ys

/-- Sort the response data by index. -/
def sortByIdx : List (Nat × List ℚ) → List (Nat × List ℚ)
  | [] => []
  | x :: xs => insertByIdx x (sortByIdx xs)

/-- `EmbeddingClient::send_request` from `embedding/client.rs`, as a
function of the single attempt's outcome. `is_success` is the 2xx check;
any non-success status yields an error carrying the status; an empty data
array is an error; otherwise the vectors are returned sorted by the
service-reported index. (The dimension check only logs.) -/
def send_request : HttpOutcome → Except EmbError (List (List ℚ))
  | .transportErr => .error .requestFailed
  | .response status body =>
      if ¬(200 ≤ status ∧ status ≤ 299) then .error (.apiFailed status)
      else
        match body with
        | .unparsable => .error .parseFailed
        | .parsed data =>
            if data = [] then .error .emptyData
            else .ok ((sortByIdx data).map Prod.snd)

/-- Result of `call_embedding_api`: the returned value, the number of
HTTP requests sent, and the number of `sleep(retry_delay_ms)` calls
(each of exactly `retry_delay_ms`, before every attempt but the first). -/
structure ApiCallStats where
  result : Except EmbError (List (List ℚ))
  requests : Nat
  sleeps : Nat

/-- The retry loop of `call_embedding_api`
(`for attempt in 0..=max_retries`): `oracle i` is the outcome of the
`i`-th attempt; `fuel` is the number of attempts still allowed. -/
def runAttempts (oracle : Nat → HttpOutcome) : Nat → Nat → ApiCallStats
  | _, 0 => ⟨.error .unknown, 0, 0⟩
  | i, fuel + 1 =>
      match send_request (oracle i) with
      | .ok v => ⟨.ok v, 1, 0⟩
      | .error e =>
          match fuel with
          | 0 => ⟨.error e, 1, 0⟩
          | f + 1 =>
              let rest := runAttempts oracle (i + 1) (f + 1)
              ⟨rest.result, rest.requests + 1, rest.sleeps + 1⟩

/-- `EmbeddingClient::call_embedding_api` for one chunk: a missing auth
token is terminal before any attempt; otherwise the chunk is attempted
`max_retries + 1` times, stopping at the first success. -/
def call_embedding_api (auth_token : Option String) (max_retries : Nat)
    (oracle : Nat → HttpOutcome) : ApiCallStats :=
  match auth_token with
  | none => ⟨.error .notLoggedIn, 0, 0⟩
  | some _ => runAttempts oracle 0 (max_retries + 1)

/-- Transcribed from the words of claim C3: an outcome after which a
retry is permitted — a transport error or a 5xx-class response; every
4xx-class response is terminal. -/
def retryableOutcome : HttpOutcome → Prop
  | .transportErr => True
  | .response status _ => 500 ≤ status ∧ status ≤ 599

/-- Whether an attempt's result is an error. -/
def isErr : Except EmbError (List (List ℚ)) → Bool
  | .error _ => true
  | .ok _ => false

/-- An oracle whose every attempt is answered with HTTP 401. -/
def oracle401 : Nat → HttpOutcome :=
  fun _ => .response 401 .unparsable

/-- An oracle with two transport failures followed by a success. -/
def oracleEx : Nat → HttpOutcome :=
  fun i => if i < 2 then .transportErr
    else .response 200 (.parsed [(0, [1])])

/-- The concept names extracted in `save` step 6 (`lib.rs`): the content
of every concept node among the nodes being written. -/
def conceptNamesOf (ns : List MemoryNode) : List String :=
  (ns.filter fun n => n.node_type == NodeType.concept).map
    fun n => n.content

/-- The externally visible actions of `MemorySystem::save` after edge
assembly: store writes and in-memory graph insertions. -/
inductive SaveAction where
  | storeAddNodes (ns : List MemoryNode)
  | storeAddEdges (es : List Edge)
  | storeUpsertConcepts (names : List String)
  | graphAddEdge (e : Edge)

/-- Whether an action mutates the in-memory graph. -/
def SaveAction.isGraphAdd : SaveAction → Bool
  | .graphAddEdge _ => true
  | _ => false

/-- The final state and action trace of one `save` call. -/
structure SaveOutcome (ε : Type) where
  result : Except ε Unit
  graph : KnowledgeGraph
  trace : List SaveAction

/-- Steps 6–7 of `MemorySystem::save` (`lib.rs`): write nodes, then
edges, then (when any concept node exists) upsert the concept pool — any
`?`-propagated store failure returns immediately — and only then insert
every assembled edge into the in-memory graph. The three store results
are oracle parameters since the store is external. -/
def saveCommit {ε : Type} (addNodesRes addEdgesRes upsertRes : Except ε Unit)
    (all_nodes : List MemoryNode) (all_edges : List Edge)
    (g : KnowledgeGraph) : SaveOutcome ε :=
  let concept_names := conceptNamesOf all_nodes
  match addNodesRes with
  | .error e => ⟨.error e, g, [.storeAddNodes all_nodes]⟩
  | .ok _ =>
      match addEdgesRes with
      | .error e =>
          ⟨.error e, g, [.storeAddNodes all_nodes,
            .storeAddEdges all_edges]⟩
      | .ok _ =>
          if concept_names.isEmpty then
            ⟨.ok (), g.add_edges all_edges,
              [.storeAddNodes all_nodes, .storeAddEdges all_edges] ++
                all_edges.map .graphAddEdge⟩
          else
            match upsertRes with
            | .error e =>
                ⟨.error e, g, [.storeAddNodes all_nodes,
                  .storeAddEdges all_edges,
                  .storeUpsertConcepts concept_names]⟩
            | .ok _ =>
                ⟨.ok (), g.add_edges all_edges,
                  [.storeAddNodes all_nodes, .storeAddEdges all_edges,
                    .storeUpsertConcepts concept_names] ++
                    all_edges.map .graphAddEdge⟩

/-- A concrete concept node for exercising the save pipeline. -/
def conceptNodeEx : MemoryNode :=
  { id := "c1", content := "人物", embedding := [], importance := 1/2,
    access_count := 0, created_at := 0, updated_at := 0,
    data := .concept 1 0 }

/-- A concrete metadata-free edge for exercising the save pipeline. -/
def edgeEx : Edge :=
  { id := "e2", source := "a", target := "c1",
    relation := "conceptualized_as", weight := 1, created_at := 0,
    metadata := none }

/-- Claim C1, counterexample: the `EdgeRecord` round trip does not
preserve the optional JSON metadata — an edge whose metadata is `Some`
comes back with metadata `None`, so the claim fails as stated. -/
theorem c1_roundtrip_drops_metadata :
    (EdgeRecord.from_edge edgeWithMeta).to_edge ≠ edgeWithMeta := by
  intro h
  have hm := congrArg Edge.metadata h
  simp [EdgeRecord.from_edge, EdgeRecord.to_edge, edgeWithMeta] at hm

/-- Claim C1 (amended): converting an `Edge` to an `EdgeRecord` and back
preserves id, source, target, relation, weight and created_at, and always
yields `metadata = None`; hence the round trip is the identity exactly on
edges whose metadata is `None`. -/
theorem c1_edge_record_roundtrip (e : Edge) :
    (EdgeRecord.from_edge e).to_edge = { e with metadata := none } := by
  rfl

/-- Every entry of a replicated-zero list is zero. -/
theorem allZeroQ_replicate (n : Nat) :
    allZeroQ (List.replicate n 0) = true := by
  induction n with
  | zero => rfl
  | succ k ih =>
      simp only [allZeroQ, List.replicate_succ, List.all_cons] at *
      simp [ih]

/-- A list with a non-zero entry fails the all-zero check. -/
theorem allZeroQ_eq_false {v : List ℚ} (h : ¬ ∀ x ∈ v, x = 0) :
    allZeroQ v = false := by
  simp only [allZeroQ, List.all_eq_false]
  push_neg at h
  obtain ⟨x, hx, hx0⟩ := h
  exact ⟨x, hx, by simpa using hx0⟩

/-- A 1024-long replicated list is not empty. -/
theorem replicate1024_ne_nil : List.replicate 1024 (0 : ℚ) ≠ [] := by
  intro h
  have hlen := congrArg List.length h
  rw [List.length_replicate, List.length_nil] at hlen
  omega

/-- `decEntityType` inverts `encEntityType`. -/
theorem decEntityType_encEntityType (et : EntityType) :
    decEntityType (encEntityType et) = some et := by
  cases et <;> rfl

/-- `decStrList` inverts the element-wise string encoding. -/
theorem decStrList_enc (ps : List Uuid) :
    decStrList (ps.map Json.str) = some ps := by
  induction ps with
  | nil => rfl
  | cons p ps ih => simp [decStrList, Json.as_str, ih]

/-- `decUuidList` inverts the UUID-list encoding. -/
theorem decUuidList_enc (ps : List Uuid) :
    decUuidList (.arr (ps.map Json.str)) = some ps := by
  simp [decUuidList, decStrList_enc]

/-- The record round trip on an entity node, fully reduced except for the
symbolic fields (everything here is definitional). -/
theorem roundtrip_entity_step (nid nc : String) (ne : List ℚ) (ni : ℚ)
    (na : Nat) (ncr nu : Int) (et : EntityType) (attrs : Option Json) :
    NodeRecord.to_node (NodeRecord.from_node
      ⟨nid, nc, ne, ni, na, ncr, nu, .entity et attrs⟩) =
    { id := nid, content := nc,
      embedding := readEmbedding (recordVector ne), importance := ni,
      access_count := na, created_at := ncr, updated_at := nu,
      data := .entity
        (((some (encEntityType et)).bind decEntityType).getD .other)
        ((some (encOptJson attrs)).bind fun v =>
          if v.is_null then none else some v) } := rfl

/-- The record round trip on an event node, fully reduced except for the
symbolic fields. -/
theorem roundtrip_event_step (nid nc : String) (ne : List ℚ) (ni : ℚ)
    (na : Nat) (ncr nu : Int) (ps : List Uuid) (et : String)
    (scid : Option String) :
    NodeRecord.to_node (NodeRecord.from_node
      ⟨nid, nc, ne, ni, na, ncr, nu, .event ps et scid⟩) =
    { id := nid, content := nc,
      embedding := readEmbedding (recordVector ne), importance := ni,
      access_count := na, created_at := ncr, updated_at := nu,
      data := .event
        (((some (Json.arr (ps.map Json.str))).bind decUuidList).getD [])
        et ((some (encOptStr scid)).bind Json.as_str) } := rfl

/-- The record round trip on a concept node, fully reduced except for the
symbolic fields. -/
theorem roundtrip_concept_step (nid nc : String) (ne : List ℚ) (ni : ℚ)
    (na : Nat) (ncr nu : Int) (ic : Nat) (lu : Int) :
    NodeRecord.to_node (NodeRecord.from_node
      ⟨nid, nc, ne, ni, na, ncr, nu, .concept ic lu⟩) =
    { id := nid, content := nc,
      embedding := readEmbedding (recordVector ne), importance := ni,
      access_count := na, created_at := ncr, updated_at := nu,
      data := .concept ((((some (Json.num ic)).bind Json.as_u64).map
          (fun v => v % 2 ^ 32)).getD 1)
        (((some (Json.num lu)).bind Json.as_i64).getD 0) } := rfl

/-- Claim C2, counterexample: `zeroEmbeddingNode` has an embedding of
length exactly 1024, yet `to_node (from_node ·)` does not return it
unchanged — the all-zero vector is read back as the empty embedding. -/
theorem c2_zero_embedding_not_preserved :
    NodeRecord.to_node (NodeRecord.from_node zeroEmbeddingNode)
      ≠ zeroEmbeddingNode := by
  intro h
  have he := congrArg MemoryNode.embedding h
  have hL : (NodeRecord.to_node (NodeRecord.from_node zeroEmbeddingNode)).embedding
      = readEmbedding (recordVector (List.replicate 1024 0)) := rfl
  have hR : zeroEmbeddingNode.embedding = List.replicate 1024 0 := rfl
  have h1 : recordVector (List.replicate 1024 (0 : ℚ)) =
      List.replicate 1024 0 := by
    simp only [recordVector]
    rw [if_neg replicate1024_ne_nil]
  have h2 : readEmbedding (List.replicate 1024 (0 : ℚ)) = [] := by
    simp only [readEmbedding]
    rw [if_pos (allZeroQ_replicate 1024)]
  rw [hL, hR, h1, h2] at he
  exact replicate1024_ne_nil he.symm

/-- Claim C2 (amended): for every `MemoryNode` whose embedding is empty
or of length exactly 1024 **and not entirely zero**, whose entity
attributes are not the JSON null value, and whose concept
`instance_count` fits in a `u32`, the record round trip
`to_node ∘ from_node` returns the node unchanged (content, importance,
access_count, embedding, created_at, updated_at and the full tagged
variant payload). -/
theorem c2_node_record_roundtrip (n : MemoryNode)
    (hemb : n.embedding = [] ∨
      (n.embedding.length = 1024 ∧ ¬ ∀ x ∈ n.embedding, x = 0))
    (hattr : attrOk n.data) (hcount : countOk n.data) :
    NodeRecord.to_node (NodeRecord.from_node n) = n := by
  have hvec : readEmbedding (recordVector n.embedding) = n.embedding := by
    rcases hemb with h0 | ⟨_, hnz⟩
    · simp [recordVector, readEmbedding, h0, allZeroQ_replicate]
    · have hne : n.embedding ≠ [] := by
        intro hnil
        exact hnz (by simp [hnil])
      simp [recordVector, readEmbedding, hne, allZeroQ_eq_false hnz]
  obtain ⟨nid, nc, ne, ni, na, ncr, nu, nd⟩ := n
  simp only at hvec
  cases nd with
  | entity et attrs =>
      have hattr' : attrs ≠ some Json.null := by simpa [attrOk] using hattr
      rw [roundtrip_entity_step]
      simp only [MemoryNode.mk.injEq, true_and]
      refine ⟨hvec, ?_⟩
      simp only [Option.some_bind, decEntityType_encEntityType,
        Option.getD_some, NodeData.entity.injEq, true_and]
      cases attrs with
      | none => simp [encOptJson, Json.is_null]
      | some v =>
          have hv : v.is_null = false := by
            cases v
            · exact absurd rfl hattr'
            all_goals rfl
          simp [encOptJson, hv]
  | event ps et scid =>
      rw [roundtrip_event_step]
      simp only [MemoryNode.mk.injEq, true_and]
      refine ⟨hvec, ?_⟩
      simp only [Option.some_bind, decUuidList_enc, Option.getD_some,
        NodeData.event.injEq, true_and]
      cases scid with
      | none => simp [encOptStr, Json.as_str]
      | some s => simp [encOptStr, Json.as_str]
  | concept ic lu =>
      have hc : ic < 2 ^ 32 := by simpa [countOk] using hcount
      rw [roundtrip_concept_step]
      simp only [MemoryNode.mk.injEq, true_and]
      refine ⟨hvec, ?_⟩
      simp [Json.as_u64, Json.as_i64]
      omega

/-- Claim C2 witness: the round trip fixes a concrete event node. -/
theorem c2_node_record_roundtrip_witness :
    (eventNodeEx.embedding = [] ∨
      (eventNodeEx.embedding.length = 1024 ∧
        ¬ ∀ x ∈ eventNodeEx.embedding, x = 0)) ∧
    attrOk eventNodeEx.data ∧ countOk eventNodeEx.data ∧
    NodeRecord.to_node (NodeRecord.from_node eventNodeEx) = eventNodeEx :=
  ⟨Or.inl rfl, trivial, trivial,
    c2_node_record_roundtrip eventNodeEx (Or.inl rfl) trivial trivial⟩

/-- A list whose entries are all zero passes the all-zero check. -/
theorem allZeroQ_eq_true {v : List ℚ} (h : ∀ x ∈ v, x = 0) :
    allZeroQ v = true := by
  simp only [allZeroQ, List.all_eq_true]
  intro x hx
  simpa using h x hx

/-- Claim C10: through the node-record layer an embedding that is empty,
of a length other than 1024, or consisting entirely of zeros is persisted
(via `from_node` and the `nodes_to_batch` vector column) as the all-zero
1024-dimensional vector; every stored all-zero vector is read back by
`to_node` as the empty embedding; and a node with a genuinely all-zero
1024-dimensional embedding produces exactly the same record as the same
node never embedded. -/
theorem c10_zero_vector_sentinel (n : MemoryNode)
    (h : n.embedding = [] ∨ n.embedding.length ≠ VECTOR_DIM ∨
      ∀ x ∈ n.embedding, x = 0) :
    batchVector (NodeRecord.from_node n).vector =
      List.replicate VECTOR_DIM 0 ∧
    (∀ v : List ℚ, (∀ x ∈ v, x = 0) → readEmbedding v = []) ∧
    ((∀ x ∈ n.embedding, x = 0) → n.embedding.length = VECTOR_DIM →
      NodeRecord.from_node n = NodeRecord.from_node { n with embedding := [] }) := by
  have hvec : (NodeRecord.from_node n).vector = recordVector n.embedding := rfl
  refine ⟨?_, ?_, ?_⟩
  · rw [hvec]
    by_cases h0 : n.embedding = []
    · simp [recordVector, batchVector, h0]
    · by_cases hlen : n.embedding.length = VECTOR_DIM
      · have hz : ∀ x ∈ n.embedding, x = 0 := by
          rcases h with h | h | h
          · exact absurd h h0
          · exact absurd hlen h
          · exact h
        have : n.embedding = List.replicate VECTOR_DIM 0 :=
          List.eq_replicate_iff.mpr ⟨hlen, hz⟩
        simp [recordVector, batchVector, h0, this]
      · simp [recordVector, batchVector, h0, hlen]
  · intro v hv
    simp [readEmbedding, allZeroQ_eq_true hv]
  · intro hz hlen
    have hrv : recordVector n.embedding = recordVector [] := by
      have h0 : n.embedding ≠ [] := by
        intro hnil
        rw [hnil] at hlen
        simp [VECTOR_DIM] at hlen
      have : n.embedding = List.replicate VECTOR_DIM 0 :=
        List.eq_replicate_iff.mpr ⟨hlen, hz⟩
      simp [recordVector, h0, this]
    obtain ⟨nid, nc, ne, ni, na, ncr, nu, nd⟩ := n
    simp only at hrv
    simp [NodeRecord.from_node, MemoryNode.node_type, hrv]

/-- Claim C10 witness: instantiated at the concrete all-zero node. -/
theorem c10_zero_vector_sentinel_witness :
    (zeroEmbeddingNode.embedding = [] ∨
      zeroEmbeddingNode.embedding.length ≠ VECTOR_DIM ∨
      ∀ x ∈ zeroEmbeddingNode.embedding, x = 0) ∧
    (batchVector (NodeRecord.from_node zeroEmbeddingNode).vector =
        List.replicate VECTOR_DIM 0 ∧
      (∀ v : List ℚ, (∀ x ∈ v, x = 0) → readEmbedding v = []) ∧
      ((∀ x ∈ zeroEmbeddingNode.embedding, x = 0) →
        zeroEmbeddingNode.embedding.length = VECTOR_DIM →
        NodeRecord.from_node zeroEmbeddingNode =
          NodeRecord.from_node { zeroEmbeddingNode with embedding := [] })) := by
  have hz : ∀ x ∈ zeroEmbeddingNode.embedding, x = 0 := by
    intro x hx
    simp only [zeroEmbeddingNode] at hx
    exact (List.mem_replicate.mp hx).2
  exact ⟨Or.inr (Or.inr hz),
    c10_zero_vector_sentinel zeroEmbeddingNode (Or.inr (Or.inr hz))⟩

/-- The one-week branch of `calculate_recency`. -/
theorem recency_le_week {now ts : Int} (h : now - ts ≤ 604800) :
    calculate_recency now ts = 1 := by
  simp only [calculate_recency]
  rw [if_pos]
  exact max_le (by omega) (by norm_num)

/-- The linear-decay branch of `calculate_recency`. -/
theorem recency_mid {now ts : Int} (h1 : 604800 < now - ts)
    (h2 : now - ts ≤ 2592000) :
    calculate_recency now ts =
      1 - (9 / 10) * (((now - ts - 604800 : Int) : ℚ) / 1987200) := by
  simp only [calculate_recency]
  rw [max_eq_left (by omega : (0 : Int) ≤ now - ts)]
  rw [if_neg (by omega), if_pos (by omega)]
  norm_num

/-- The floor branch of `calculate_recency`. -/
theorem recency_old {now ts : Int} (h : 2592000 < now - ts) :
    calculate_recency now ts = 1 / 10 := by
  simp only [calculate_recency]
  rw [max_eq_left (by omega : (0 : Int) ≤ now - ts)]
  rw [if_neg (by omega), if_neg (by omega)]

/-- Claim C6: `calculate_recency` returns 1.0 for timestamps at most 7
days (604800 s) in the past, decays linearly from 1.0 at 7 days to 0.1
at 30 days (2592000 s), returns the constant 0.1 for anything older, is
exactly 1.0 at the current time, and is at most 0.1 at 31 days in the
past. -/
theorem c6_calculate_recency (now ts : Int) :
    (now - ts ≤ 604800 → calculate_recency now ts = 1) ∧
    (604800 < now - ts → now - ts ≤ 2592000 →
      calculate_recency now ts =
        1 - (9 / 10) * (((now - ts - 604800 : Int) : ℚ) / 1987200)) ∧
    (2592000 < now - ts → calculate_recency now ts = 1 / 10) ∧
    calculate_recency now now = 1 ∧
    calculate_recency now (now - 31 * 86400) ≤ 1 / 10 := by
  refine ⟨fun h => recency_le_week h, fun h1 h2 => recency_mid h1 h2,
    fun h => recency_old h, recency_le_week (by omega), ?_⟩
  rw [recency_old (by omega)]

/-- Claim C6 witness: the three branches at concrete times. -/
theorem c6_calculate_recency_witness :
    calculate_recency 2000000000 1999999000 = 1 ∧
    calculate_recency 2000000000 (2000000000 - 1598400) =
      1 - (9 / 10) *
        (((2000000000 - (2000000000 - 1598400) - 604800 : Int) : ℚ) / 1987200) ∧
    calculate_recency 2000000000 0 = 1 / 10 :=
  ⟨(c6_calculate_recency 2000000000 1999999000).1 (by norm_num),
   (c6_calculate_recency 2000000000 (2000000000 - 1598400)).2.1
      (by norm_num) (by norm_num),
   (c6_calculate_recency 2000000000 0).2.2.1 (by norm_num)⟩

/-- The code's importance buckets (strict `>` tests) agree with the
claim's `≤` formulation. -/
theorem mkEventFields_eq_spec (fmtTs : Int → Option String)
    (now_time : String) (m : Message) (reply : Option Message) :
    mkEventFields fmtTs now_time m reply =
      specEventFields fmtTs now_time m reply := by
  simp only [mkEventFields, specEventFields, eventImportance,
    EventFields.mk.injEq, true_and, and_true]
  split_ifs <;> first | rfl | (exfalso; omega)

/-- `messages_to_events` is the claim's pairing followed by the claim's
event construction. -/
theorem messages_to_events_eq_spec (fmtTs : Int → Option String)
    (now_time : String) (msgs : List Message) :
    messages_to_events fmtTs now_time msgs =
      (pairUserMessages msgs).map fun p =>
        specEventFields fmtTs now_time p.1 p.2 := by
  induction msgs using pairUserMessages.induct <;>
    simp_all [pairUserMessages, messages_to_events, mkEventFields_eq_spec]

/-- The paired user messages are exactly the user messages, in order. -/
theorem pairUserMessages_fst (msgs : List Message) :
    (pairUserMessages msgs).map Prod.fst =
      msgs.filter fun m => m.role == "user" := by
  induction msgs using pairUserMessages.induct <;>
    simp_all [pairUserMessages, List.filter_cons]

/-- Each pair's second component, when present, is an assistant message,
and each pair's first component is a user message. -/
theorem pairUserMessages_roles (msgs : List Message) :
    ∀ p ∈ pairUserMessages msgs,
      p.1.role = "user" ∧ ∀ r, p.2 = some r → r.role = "assistant" := by
  induction msgs using pairUserMessages.induct with
  | case1 => intro p hp; simp [pairUserMessages] at hp
  | case2 m h =>
      intro p hp
      simp [pairUserMessages, h] at hp
      subst hp
      exact ⟨h, by intro r hr; simp at hr⟩
  | case3 m h =>
      intro p hp
      simp [pairUserMessages, h] at hp
  | case4 m r rest2 h1 h2 ih =>
      intro p hp
      simp only [pairUserMessages, if_pos h1, if_pos h2,
        List.mem_cons] at hp
      rcases hp with hp | hp
      · subst hp
        exact ⟨h1, by intro r' hr'; injection hr' with hr'; rw [← hr']; exact h2⟩
      · exact ih p hp
  | case5 m r rest2 h1 h2 ih =>
      intro p hp
      simp only [pairUserMessages, if_pos h1, if_neg h2,
        List.mem_cons] at hp
      rcases hp with hp | hp
      · subst hp
        exact ⟨h1, by intro r' hr'; simp at hr'⟩
      · exact ih p hp
  | case6 m r rest2 h1 ih =>
      intro p hp
      simp only [pairUserMessages, if_neg h1] at hp
      exact ih p hp

/-- Claim C5: `messages_to_events` creates exactly one event per user
message, in order; the event content is
"用户说：{user}\n回复：{assistant}" when the user message is immediately
followed by an assistant message and "用户说：{user}" otherwise; the
importance is 0.4 for content length at most 50 bytes, 0.6 for at most
200, 0.8 above; non-user messages that do not immediately follow a user
message produce no event. -/
theorem c5_messages_to_events (fmtTs : Int → Option String)
    (now_time : String) (msgs : List Message) :
    (messages_to_events fmtTs now_time msgs).length =
      (msgs.filter fun m => m.role == "user").length ∧
    messages_to_events fmtTs now_time msgs =
      ((pairUserMessages msgs).map fun p =>
        specEventFields fmtTs now_time p.1 p.2) ∧
    (pairUserMessages msgs).map Prod.fst =
      (msgs.filter fun m => m.role == "user") ∧
    (∀ p ∈ pairUserMessages msgs,
      p.1.role = "user" ∧ ∀ r, p.2 = some r → r.role = "assistant") := by
  refine ⟨?_, messages_to_events_eq_spec fmtTs now_time msgs,
    pairUserMessages_fst msgs, pairUserMessages_roles msgs⟩
  rw [messages_to_events_eq_spec, ← pairUserMessages_fst]
  simp

/-- The dot product in `cosine_similarity` is symmetric. -/
theorem dot_comm (a b : List ℝ) :
    ((a.zip b).map fun p => p.1 * p.2).sum =
      ((b.zip a).map fun p => p.1 * p.2).sum := by
  induction a generalizing b with
  | nil => cases b <;> simp
  | cons x xs ih =>
      cases b with
      | nil => simp
      | cons y ys => simp [ih ys, mul_comm]

/-- `cosine_similarity` is symmetric in its arguments. -/
theorem cosine_similarity_comm (a b : List ℝ) :
    cosine_similarity a b = cosine_similarity b a := by
  by_cases hlen : a.length = b.length
  · by_cases ha : a = []
    · have hb : b = [] := by
        cases b with
        | nil => rfl
        | cons y ys => rw [ha] at hlen; simp at hlen
      subst ha; subst hb; rfl
    · have hb : b ≠ [] := by
        intro hnil
        rw [hnil] at hlen
        simp at hlen
        exact ha hlen
      simp only [cosine_similarity]
      have h1 : ¬(a.length ≠ b.length ∨ a = []) := by
        push_neg
        exact ⟨hlen, ha⟩
      have h2 : ¬(b.length ≠ a.length ∨ b = []) := by
        push_neg
        exact ⟨hlen.symm, hb⟩
      rw [if_neg h1, if_neg h2]
      by_cases hz : Real.sqrt ((a.map fun x => x * x).sum) = 0 ∨
          Real.sqrt ((b.map fun x => x * x).sum) = 0
      · rw [if_pos hz, if_pos hz.symm]
      · rw [if_neg hz, if_neg fun h => hz h.symm, dot_comm a b, mul_comm]
  · simp only [cosine_similarity]
    rw [if_pos (Or.inl hlen), if_pos (Or.inl fun h => hlen h.symm)]

/-- Claim C4: `calculate_node_weight` equals
`0.4·sim + 0.2·recency + 0.25·importance' + 0.15·freq` with `sim`,
`importance'` and `freq` exactly as the claim states them (`sim` is the
cosine similarity of the query and node embeddings for a non-empty node
embedding and 0 otherwise, `importance'` adds the 0.3 custom-mark bonus
capped at 1, `freq = min(1, ln(access_count + 1) / 10)`). -/
theorem c4_calculate_node_weight (now : Int) (node : MemoryNode)
    (query_embedding : List ℚ) (custom_ids : Finset Uuid) :
    calculate_node_weight now node query_embedding custom_ids =
      0.4 * specSim node query_embedding
      + 0.2 * ((calculate_recency now node.updated_at : ℚ) : ℝ)
      + 0.25 * specImportance node custom_ids
      + 0.15 * specFreq node := by
  by_cases he : node.embedding = [] <;>
    by_cases hc : node.id ∈ custom_ids <;>
      simp [calculate_node_weight, specSim, specImportance, specFreq, he,
        hc, cosine_similarity_comm, min_comm] <;>
      norm_num

/-- Claim C3, counterexample: the retry loop never inspects the HTTP
status class, so it also retries after 4xx responses. With every attempt
answered 401 and `max_retries = 3`, four requests are sent — a retry
followed the 401 of attempt 0 although the claim calls every 4xx
terminal. -/
theorem c3_4xx_is_retried :
    ¬ (∀ (tok : String) (mr : Nat) (oracle : Nat → HttpOutcome) (k : Nat),
        k + 1 < (call_embedding_api (some tok) mr oracle).requests →
        retryableOutcome (oracle k)) := by
  intro h
  have h4 : (call_embedding_api (some "t") 3 oracle401).requests = 4 := rfl
  have hr := h "t" 3 oracle401 0 (by rw [h4]; omega)
  simp only [oracle401, retryableOutcome] at hr
  omega

/-- When every attempt up to the fuel bound fails, the loop uses all its
fuel and returns the last error. -/
theorem runAttempts_all_err (oracle : Nat → HttpOutcome) :
    ∀ (fuel i : Nat), 1 ≤ fuel →
      (∀ k, k < fuel → isErr (send_request (oracle (i + k))) = true) →
      runAttempts oracle i fuel =
        ⟨send_request (oracle (i + (fuel - 1))), fuel, fuel - 1⟩ := by
  intro fuel
  induction fuel with
  | zero => intro i h; omega
  | succ f ih =>
      intro i _ hall
      have h0 := hall 0 (by omega)
      simp only [Nat.add_zero] at h0
      cases hsr : send_request (oracle i) with
      | ok v => rw [hsr] at h0; simp [isErr] at h0
      | error e =>
          cases f with
          | zero => simp [runAttempts, hsr]
          | succ f2 =>
              have hrec := ih (i + 1) (by omega) (fun k hk => by
                have hx := hall (k + 1) (by omega)
                have harg2 : i + (k + 1) = i + 1 + k := by omega
                rwa [harg2] at hx)
              have harg : i + 1 + (f2 + 1 - 1) = i + (f2 + 1 + 1 - 1) := by
                omega
              rw [harg] at hrec
              simp [runAttempts, hsr, hrec]

/-- When the first success is at attempt `j` (within fuel), the loop
stops there: `j + 1` requests and `j` sleeps. -/
theorem runAttempts_first_ok (oracle : Nat → HttpOutcome) :
    ∀ (fuel i j : Nat) (v : List (List ℚ)), j < fuel →
      (∀ k, k < j → isErr (send_request (oracle (i + k))) = true) →
      send_request (oracle (i + j)) = .ok v →
      runAttempts oracle i fuel = ⟨.ok v, j + 1, j⟩ := by
  intro fuel
  induction fuel with
  | zero => intro i j v hj; omega
  | succ f ih =>
      intro i j v hj hbefore hok
      cases j with
      | zero =>
          have hok' : send_request (oracle i) = .ok v := by
            simpa using hok
          simp [runAttempts, hok']
      | succ j2 =>
          have h0 : isErr (send_request (oracle i)) = true := by
            simpa using hbefore 0 (by omega)
          cases hsr : send_request (oracle i) with
          | ok w => rw [hsr] at h0; simp [isErr] at h0
          | error e =>
              cases f with
              | zero => omega
              | succ f2 =>
                  have hrec := ih (i + 1) j2 v (by omega)
                    (fun k hk => by
                      have hx := hbefore (k + 1) (by omega)
                      have harg2 : i + (k + 1) = i + 1 + k := by omega
                      rwa [harg2] at hx)
                    (by
                      have harg3 : i + (j2 + 1) = i + 1 + j2 := by omega
                      rwa [harg3] at hok)
                  simp [runAttempts, hsr, hrec]

/-- Claim C3 (amended): a missing auth token is terminal before any
attempt; otherwise every failed attempt — transport error, 5xx **and
4xx alike** — is retried, up to `max_retries` retries after the first
attempt, each preceded by one fixed `retry_delay_ms` sleep: if all
`max_retries + 1` attempts fail the last error is returned after
`max_retries` sleeps, and a first success at attempt `j` returns it
after `j + 1` requests and `j` sleeps. -/
theorem c3_retry_semantics (tok : String) (mr : Nat)
    (oracle : Nat → HttpOutcome) :
    call_embedding_api none mr oracle = ⟨.error .notLoggedIn, 0, 0⟩ ∧
    ((∀ k, k ≤ mr → isErr (send_request (oracle k)) = true) →
      call_embedding_api (some tok) mr oracle =
        ⟨send_request (oracle mr), mr + 1, mr⟩) ∧
    (∀ (j : Nat) (v : List (List ℚ)), j ≤ mr →
      (∀ k, k < j → isErr (send_request (oracle k)) = true) →
      send_request (oracle j) = .ok v →
      call_embedding_api (some tok) mr oracle = ⟨.ok v, j + 1, j⟩) := by
  refine ⟨rfl, ?_, ?_⟩
  · intro hall
    have := runAttempts_all_err oracle (mr + 1) 0 (by omega)
      (fun k hk => by simpa using hall k (by omega))
    simpa [call_embedding_api] using this
  · intro j v hj hbefore hok
    have := runAttempts_first_ok oracle (mr + 1) 0 j v (by omega)
      (fun k hk => by simpa using hbefore k hk) (by simpa using hok)
    simpa [call_embedding_api] using this

/-- Claim C3 witness: two transport failures then a success at attempt 2
with `max_retries = 3`: three requests, two sleeps. -/
theorem c3_retry_semantics_witness :
    call_embedding_api (some "t") 3 oracleEx = ⟨.ok [[1]], 3, 2⟩ := by
  have h := (c3_retry_semantics "t" 3 oracleEx).2.2 2 [[1]]
    (by omega)
    (by intro k hk; interval_cases k <;> rfl)
    rfl
  simpa using h

/-- Claim C9: within `save`, all nodes and edges are written to the store
strictly before any edge is inserted into the in-memory graph — on
success the trace is the store writes (nodes, edges, and the concept
upsert when concept nodes exist) followed by exactly the graph
insertions of the assembled edges, and if any store write fails, `save`
returns that error with the in-memory graph unchanged and no graph
insertion in the trace. -/
theorem c9_store_writes_before_graph {ε : Type}
    (rN rE rC : Except ε Unit) (ns : List MemoryNode) (es : List Edge)
    (g : KnowledgeGraph) :
    ((∃ e, (saveCommit rN rE rC ns es g).result = Except.error e) →
      (saveCommit rN rE rC ns es g).graph = g ∧
      ∀ a ∈ (saveCommit rN rE rC ns es g).trace, a.isGraphAdd = false) ∧
    ((saveCommit rN rE rC ns es g).result = Except.ok () →
      ∃ pre, (saveCommit rN rE rC ns es g).trace =
          pre ++ es.map SaveAction.graphAddEdge ∧
        SaveAction.storeAddNodes ns ∈ pre ∧
        SaveAction.storeAddEdges es ∈ pre ∧
        (∀ a ∈ pre, a.isGraphAdd = false) ∧
        (saveCommit rN rE rC ns es g).graph = g.add_edges es) := by
  cases rN with
  | error e =>
      refine ⟨fun _ => ⟨rfl, ?_⟩, fun hok => by simp [saveCommit] at hok⟩
      intro a ha
      simp only [saveCommit, List.mem_singleton] at ha
      simp [ha, SaveAction.isGraphAdd]
  | ok u0 =>
      cases u0
      cases rE with
      | error e =>
          refine ⟨fun _ => ⟨rfl, ?_⟩, fun hok => by simp [saveCommit] at hok⟩
          intro a ha
          simp only [saveCommit, List.mem_cons, List.mem_singleton] at ha
          rcases ha with ha | ha | ha
          all_goals simp_all [SaveAction.isGraphAdd]
      | ok u1 =>
          cases u1
          by_cases hcn : (conceptNamesOf ns).isEmpty
          · constructor
            · rintro ⟨e, he⟩
              simp [saveCommit, hcn] at he
            · intro _
              refine ⟨[SaveAction.storeAddNodes ns,
                SaveAction.storeAddEdges es], ?_, ?_, ?_, ?_, ?_⟩
              · simp [saveCommit, hcn]
              · simp
              · simp
              · intro a ha
                fin_cases ha <;> simp [SaveAction.isGraphAdd]
              · simp [saveCommit, hcn]
          · cases rC with
            | error e =>
                constructor
                · intro _
                  refine ⟨by simp [saveCommit, hcn], ?_⟩
                  intro a ha
                  simp only [saveCommit, hcn, if_neg] at ha
                  fin_cases ha <;> simp [SaveAction.isGraphAdd]
                · intro hok
                  simp [saveCommit, hcn] at hok
            | ok u2 =>
                cases u2
                constructor
                · rintro ⟨e, he⟩
                  simp [saveCommit, hcn] at he
                · intro _
                  refine ⟨[SaveAction.storeAddNodes ns,
                    SaveAction.storeAddEdges es,
                    SaveAction.storeUpsertConcepts (conceptNamesOf ns)],
                    ?_, ?_, ?_, ?_, ?_⟩
                  · simp [saveCommit, hcn]
                  · simp
                  · simp
                  · intro a ha
                    fin_cases ha <;> simp [SaveAction.isGraphAdd]
                  · simp [saveCommit, hcn]

/-- Claim C9 witness: both branches at concrete inputs. -/
theorem c9_store_writes_before_graph_witness :
    ((saveCommit (Except.ok () : Except String Unit) (.ok ()) (.ok ())
        [conceptNodeEx] [edgeEx] KnowledgeGraph.empty).result = .ok () →
      ∃ pre, (saveCommit (Except.ok () : Except String Unit) (.ok ()) (.ok ())
          [conceptNodeEx] [edgeEx] KnowledgeGraph.empty).trace =
          pre ++ [edgeEx].map SaveAction.graphAddEdge ∧
        SaveAction.storeAddNodes [conceptNodeEx] ∈ pre ∧
        SaveAction.storeAddEdges [edgeEx] ∈ pre ∧
        (∀ a ∈ pre, a.isGraphAdd = false) ∧
        (saveCommit (Except.ok () : Except String Unit) (.ok ()) (.ok ())
            [conceptNodeEx] [edgeEx] KnowledgeGraph.empty).graph =
          KnowledgeGraph.empty.add_edges [edgeEx]) ∧
    ((∃ e, (saveCommit (Except.error "disk full" : Except String Unit) (.ok ()) (.ok ())
        [conceptNodeEx] [edgeEx] KnowledgeGraph.empty).result =
          Except.error e) →
      (saveCommit (Except.error "disk full" : Except String Unit) (.ok ()) (.ok ())
          [conceptNodeEx] [edgeEx] KnowledgeGraph.empty).graph =
        KnowledgeGraph.empty ∧
      ∀ a ∈ (saveCommit (Except.error "disk full" : Except String Unit) (.ok ()) (.ok ())
          [conceptNodeEx] [edgeEx] KnowledgeGraph.empty).trace,
        a.isGraphAdd = false) :=
  ⟨(c9_store_writes_before_graph (.ok ()) (.ok ()) (.ok ())
      [conceptNodeEx] [edgeEx] KnowledgeGraph.empty).2,
   (c9_store_writes_before_graph (.error "disk full") (.ok ()) (.ok ())
      [conceptNodeEx] [edgeEx] KnowledgeGraph.empty).1⟩

/-- A hit in the rebuilt index names a position carrying that weight. -/
theorem lookup_buildIndexAux_some {k : Nat} {ns : List Uuid} {u : Uuid}
    {i : Nat} (h : (buildIndexAux k ns).lookup u = some i) :
    ∃ j, i = k + j ∧ ns.get? j = some u := by
  induction ns generalizing k with
  | nil => simp [buildIndexAux, List.lookup] at h
  | cons x xs ih =>
      simp only [buildIndexAux, List.lookup] at h
      cases hux : u == x with
      | true =>
          rw [hux] at h
          simp only [Option.some.injEq] at h
          refine ⟨0, by omega, ?_⟩
          have : u = x := by simpa using hux
          simp [this]
      | false =>
          rw [hux] at h
          obtain ⟨j, hj, hget⟩ := ih h
          exact ⟨j + 1, by omega, by simpa using hget⟩

/-- The rebuilt index misses exactly the absent weights. -/
theorem lookup_buildIndexAux_none {k : Nat} {ns : List Uuid} {u : Uuid} :
    (buildIndexAux k ns).lookup u = none ↔ u ∉ ns := by
  induction ns generalizing k with
  | nil => simp [buildIndexAux, List.lookup]
  | cons x xs ih =>
      simp only [buildIndexAux, List.lookup, List.mem_cons]
      cases hux : u == x with
      | true =>
          have : u = x := by simpa using hux
          simp [this]
      | false =>
          have : ¬ u = x := by simpa using hux
          simp [this, ih]

/-- A hit in the index built from 0 names a position carrying that
weight. -/
theorem lookup_buildIndex_some {ns : List Uuid} {u : Uuid} {i : Nat}
    (h : (buildIndex ns).lookup u = some i) : ns.get? i = some u := by
  obtain ⟨j, hj, hget⟩ := @lookup_buildIndexAux_some 0 ns u i h
  simpa [hj] using hget

/-- Present weights are found by the rebuilt index. -/
theorem lookup_buildIndex_of_mem {ns : List Uuid} {u : Uuid}
    (h : u ∈ ns) : ∃ i, (buildIndex ns).lookup u = some i := by
  cases hl : (buildIndex ns).lookup u with
  | none => exact absurd (lookup_buildIndexAux_none.mp hl) (by simp [h])
  | some i => exact ⟨i, rfl⟩

/-- Association lookup skips a miss-only prefix. -/
theorem lookup_append_of_none {l1 l2 : List (Uuid × Nat)} {u : Uuid}
    (h : l1.lookup u = none) : (l1 ++ l2).lookup u = l2.lookup u := by
  induction l1 with
  | nil => rfl
  | cons p l1 ih =>
      simp only [List.cons_append, List.lookup] at h ⊢
      cases hup : u == p.1 with
      | true => simp_all
      | false => simp_all; exact ih h

/-- Setting a position to the value it already holds changes nothing. -/
theorem list_set_same {α : Type} :
    ∀ (l : List α) (i : Nat) (a : α), l.get? i = some a → l.set i a = l := by
  intro l
  induction l with
  | nil => intro i a h; simp at h
  | cons x xs ih =>
      intro i a h
      cases i with
      | zero =>
          have hx : x = a := by
            have hsome : some x = some a := h
            injection hsome
          simp [List.set, hx]
      | succ j =>
          have h2 : xs.get? j = some a := h
          simp [List.set, ih j a h2]

/-- Setting exactly at the length of the left part replaces the head of
the right part. -/
theorem list_set_append_length {α : Type} (T : List α) (b y : α)
    (R : List α) : (T ++ b :: R).set T.length y = T ++ y :: R := by
  induction T with
  | nil => rfl
  | cons t ts ih => simp [List.set, ih]

/-- `getD` through `get?`. -/
theorem list_getD_eq_get? {α : Type} :
    ∀ (l : List α) (i : Nat) (d : α), l.getD i d = (l.get? i).getD d := by
  intro l
  induction l with
  | nil => intro i d; cases i <;> rfl
  | cons x xs ih => intro i d; cases i with
      | zero => rfl
      | succ j => exact ih j d

/-- `petgraph`'s swap-remove of a present node: one node shorter,
still duplicate-free, and containing exactly the other nodes. -/
theorem swapRemove_spec {ns : List Uuid} {idx : Nat} {id : Uuid}
    (hnd : ns.Nodup) (hget : ns.get? idx = some id) :
    (swapRemoveNodes ns idx).length = ns.length - 1 ∧
    (swapRemoveNodes ns idx).Nodup ∧
    ∀ u, u ∈ swapRemoveNodes ns idx ↔ u ∈ ns ∧ u ≠ id := by
  have hlt : idx < ns.length := by
    by_contra hge
    push_neg at hge
    rw [List.get?_eq_none.mpr hge] at hget
    exact Option.noConfusion hget
  have hdrop : ns.drop idx = id :: ns.drop (idx + 1) := by
    rw [List.drop_eq_getElem_cons hlt]
    congr 1
    have := List.get?_eq_getElem? ns idx
    rw [hget] at this
    have h2 := List.getElem?_eq_getElem hlt
    rw [h2] at this
    injection this.symm
  have hdecomp : ns = ns.take idx ++ id :: ns.drop (idx + 1) := by
    conv_lhs => rw [← List.take_append_drop idx ns]
    rw [hdrop]
  have hTlen : (ns.take idx).length = idx := by
    rw [List.length_take]
    omega
  set T := ns.take idx with hT
  set D := ns.drop (idx + 1) with hD
  rcases List.eq_nil_or_concat D with hDnil | ⟨C, y, hDC⟩
  all_goals try rw [List.concat_eq_append] at hDC
  · -- idx is the last position
    have hlen : ns.length = idx + 1 := by
      rw [hdecomp, hDnil]
      simp [hTlen]
    have hlast : ns.getD (ns.length - 1) "" = id := by
      have hget2 : ns[idx]? = some id := by
        rw [← List.get?_eq_getElem?]
        exact hget
      rw [list_getD_eq_get?, hlen]
      simp [hget2]
    have hset : ns.set idx (ns.getD (ns.length - 1) "") = ns := by
      rw [hlast]
      exact list_set_same ns idx id hget
    have hsw : swapRemoveNodes ns idx = T := by
      rw [swapRemoveNodes, hset]
      conv_lhs => rw [hdecomp, hDnil]
      exact List.dropLast_concat
    have hndT : (T ++ [id]).Nodup := by
      rw [← hDnil, ← hdecomp]
      exact hnd
    rw [hsw]
    have hidT : id ∉ T := by
      rw [List.nodup_append] at hndT
      intro hmem
      exact hndT.2.2 hmem (by simp)
    refine ⟨by omega, (List.nodup_append.mp hndT).1, ?_⟩
    intro u
    constructor
    · intro hu
      refine ⟨by rw [hdecomp, hDnil]; exact List.mem_append_left _ hu, ?_⟩
      intro heq
      subst heq
      exact hidT hu
    · rintro ⟨hu, hne⟩
      rw [hdecomp, hDnil] at hu
      rcases List.mem_append.mp hu with hu | hu
      · exact hu
      · simp at hu
        exact absurd hu hne
  · -- the last element y is swapped into position idx
    have hns2 : ns = (T ++ id :: C) ++ [y] := by
      rw [hdecomp, hDC]
      simp
    have hlen : ns.length = (T ++ id :: C).length + 1 := by
      rw [hns2]
      simp only [List.length_append, List.length_cons, List.length_nil]
    have hlast : ns.getD (ns.length - 1) "" = y := by
      rw [list_getD_eq_get?, hlen]
      simp only [Nat.add_sub_cancel]
      rw [hns2]
      rw [List.get?_eq_getElem?]
      rw [List.getElem?_concat_length]
      rfl
    have hset : ns.set idx (ns.getD (ns.length - 1) "") =
        T ++ y :: (C ++ [y]) := by
      rw [hlast]
      conv_lhs => rw [hdecomp, hDC, ← hTlen]
      exact list_set_append_length T id y (C ++ [y])
    have hsw : swapRemoveNodes ns idx = T ++ y :: C := by
      rw [swapRemoveNodes, hset]
      have : T ++ y :: (C ++ [y]) = (T ++ y :: C) ++ [y] := by simp
      rw [this]
      exact List.dropLast_concat
    -- nodup facts from the decomposition
    have hnd2 : (T ++ id :: (C ++ [y])).Nodup := by
      rw [hDC] at hdecomp
      rw [← hdecomp]
      exact hnd
    rw [List.nodup_append] at hnd2
    obtain ⟨hndT, hndR, hdisj⟩ := hnd2
    rw [List.nodup_cons] at hndR
    obtain ⟨hidR, hndCy⟩ := hndR
    rw [List.nodup_append] at hndCy
    obtain ⟨hndC, _, hdisjCy⟩ := hndCy
    have hyC : y ∉ C := fun hmem => hdisjCy hmem (by simp)
    have hidC : id ∉ C := fun hmem => hidR (List.mem_append_left _ hmem)
    have hidy : id ≠ y := fun heq => hidR (by simp [heq])
    have hyT : y ∉ T := fun hmem => hdisj hmem (by simp)
    have hidT : id ∉ T := fun hmem => hdisj hmem (by simp)
    rw [hsw]
    refine ⟨?_, ?_, ?_⟩
    · rw [hlen]
      simp
    · rw [List.nodup_append, List.nodup_cons]
      refine ⟨hndT, ⟨hyC, hndC⟩, ?_⟩
      intro a haT hamem
      rcases List.mem_cons.mp hamem with ha | ha
      · subst ha
        exact hyT haT
      · exact hdisj haT (by simp [ha])
    · intro u
      constructor
      · intro hu
        rcases List.mem_append.mp hu with hu | hu
        · refine ⟨by rw [hdecomp]; exact List.mem_append_left _ hu,
            fun heq => hidT (heq ▸ hu)⟩
        · rcases List.mem_cons.mp hu with hu | hu
          · subst hu
            refine ⟨by rw [hns2]; simp, fun heq => hidy heq.symm⟩
          · refine ⟨by rw [hdecomp, hDC]; simp [hu],
              fun heq => hidC (heq ▸ hu)⟩
      · rintro ⟨hu, hne⟩
        rw [hdecomp, hDC] at hu
        simp only [List.mem_append, List.mem_cons] at hu
        rcases hu with hu | hu | hu
        · exact List.mem_append_left _ hu
        · exact absurd hu hne
        · rcases hu with hu | hu
          · simp [hu]
          · simp at hu
            simp [hu]

/-- `remove_node` on a present, well-formed node: the result is still
well-formed, no longer contains the id, and is one node shorter. -/
theorem remove_node_spec {g : KnowledgeGraph} {id : Uuid}
    (hwf : g.WellFormed) (hmem : id ∈ g.nodes) :
    (g.remove_node id).WellFormed ∧ id ∉ (g.remove_node id).nodes ∧
    (g.remove_node id).nodes.length = g.nodes.length - 1 ∧
    (g.remove_node id).idToIndex = buildIndex (g.remove_node id).nodes := by
  obtain ⟨hnd, hmap, hedges⟩ := hwf
  obtain ⟨idx, hlk⟩ := lookup_buildIndex_of_mem hmem
  have hlk2 : g.idToIndex.lookup id = some idx := by rw [hmap]; exact hlk
  have hget : g.nodes.get? idx = some id := lookup_buildIndex_some hlk
  have hlt : idx < g.nodes.length := by
    by_contra hge
    push_neg at hge
    rw [List.get?_eq_none.mpr hge] at hget
    exact Option.noConfusion hget
  obtain ⟨hswlen, hswnd, hswmem⟩ := swapRemove_spec hnd hget
  have hred : g.remove_node id =
      { nodes := swapRemoveNodes g.nodes idx,
        edges := (g.edges.filter fun e =>
          decide (e.src ≠ idx) && decide (e.tgt ≠ idx)).map fun e =>
            ⟨renumberEndpoint (g.nodes.length - 1) idx e.src,
             renumberEndpoint (g.nodes.length - 1) idx e.tgt, e.val⟩,
        idToIndex := buildIndex (swapRemoveNodes g.nodes idx) } := by
    rw [KnowledgeGraph.remove_node, hlk2]
  rw [hred]
  refine ⟨⟨hswnd, rfl, ?_⟩, ?_, by simpa using hswlen, rfl⟩
  · intro e2 he2
    simp only [List.mem_map, List.mem_filter] at he2
    obtain ⟨e, ⟨hein, hne⟩, heq⟩ := he2
    simp only [Bool.and_eq_true, decide_eq_true_eq] at hne
    obtain ⟨hsrc, htgt⟩ := hne
    obtain ⟨hb1, hb2⟩ := hedges e hein
    subst heq
    rw [hswlen]
    constructor
    · simp only [renumberEndpoint]
      split_ifs with hlast
      · omega
      · omega
    · simp only [renumberEndpoint]
      split_ifs with hlast
      · omega
      · omega
  · intro hmem2
    exact ((hswmem id).mp hmem2).2 rfl

/-- Claim C8: on a well-formed graph containing `id`, after
`remove_node(id)` every remaining id looked up in the rebuilt map yields
the handle carrying that id, the removed id is gone, and after
`add_node(id)` the node exists again and its fresh handle has no
incident edges. -/
theorem c8_remove_then_add (g : KnowledgeGraph) (id : Uuid)
    (hwf : g.WellFormed) (hmem : id ∈ g.nodes) :
    (∀ u i, ((g.remove_node id).idToIndex).lookup u = some i →
        (g.remove_node id).nodes.get? i = some u) ∧
    (g.remove_node id).contains_node id = false ∧
    (((g.remove_node id).add_node id).1).contains_node id = true ∧
    ∀ e ∈ (((g.remove_node id).add_node id).1).edges,
        e.src ≠ ((g.remove_node id).add_node id).2 ∧
        e.tgt ≠ ((g.remove_node id).add_node id).2 := by
  obtain ⟨⟨hnd1, hmap1, hedges1⟩, hid1, hlen1, hbuild1⟩ :=
    remove_node_spec hwf hmem
  have hlknone : (g.remove_node id).idToIndex.lookup id = none := by
    rw [hbuild1]
    exact lookup_buildIndexAux_none.mpr hid1
  have hadd : (g.remove_node id).add_node id =
      ({ nodes := (g.remove_node id).nodes ++ [id],
         edges := (g.remove_node id).edges,
         idToIndex := (g.remove_node id).idToIndex ++
           [(id, (g.remove_node id).nodes.length)] },
       (g.remove_node id).nodes.length) := by
    rw [KnowledgeGraph.add_node, hlknone]
  refine ⟨?_, ?_, ?_, ?_⟩
  · intro u i hu
    rw [hbuild1] at hu
    exact lookup_buildIndex_some hu
  · simp [KnowledgeGraph.contains_node, hlknone]
  · rw [hadd]
    simp only [KnowledgeGraph.contains_node]
    rw [lookup_append_of_none hlknone]
    simp [List.lookup]
  · rw [hadd]
    intro e he
    have := hedges1 e he
    omega

/-- A concrete well-formed three-node graph with two edges. -/
def graphEx : KnowledgeGraph :=
  { nodes := ["a", "b", "c"],
    edges := [⟨0, 1, edgeEx⟩, ⟨1, 2, edgeEx⟩],
    idToIndex := [("a", 0), ("b", 1), ("c", 2)] }

/-- Claim C8 witness: remove then re-add `"b"` in `graphEx`. -/
theorem c8_remove_then_add_witness :
    graphEx.WellFormed ∧ "b" ∈ graphEx.nodes ∧
    ((∀ u i, ((graphEx.remove_node "b").idToIndex).lookup u = some i →
        (graphEx.remove_node "b").nodes.get? i = some u) ∧
    (graphEx.remove_node "b").contains_node "b" = false ∧
    (((graphEx.remove_node "b").add_node "b").1).contains_node "b" = true ∧
    ∀ e ∈ (((graphEx.remove_node "b").add_node "b").1).edges,
        e.src ≠ ((graphEx.remove_node "b").add_node "b").2 ∧
        e.tgt ≠ ((graphEx.remove_node "b").add_node "b").2) :=
  ⟨⟨by decide, by decide, by decide⟩, by decide,
    c8_remove_then_add graphEx "b" ⟨by decide, by decide, by decide⟩
      (by decide)⟩

theorem undirectedNeighbors_cons (e : GEdge) (es : List GEdge)
    (S : Finset Nat) :
    undirectedNeighbors (e :: es) S =
      ((if e.src ∈ S then {e.tgt} else ∅) ∪
        (if e.tgt ∈ S then {e.src} else ∅)) ∪ undirectedNeighbors es S :=
  rfl

theorem mem_undirectedNeighbors {es : List GEdge} {S : Finset Nat} {x : Nat} :
    x ∈ undirectedNeighbors es S ↔
      ∃ e ∈ es, (e.src ∈ S ∧ x = e.tgt) ∨ (e.tgt ∈ S ∧ x = e.src) := by
  induction es with
  | nil => simp [undirectedNeighbors]
  | cons e es ih =>
      rw [undirectedNeighbors_cons]
      simp only [Finset.mem_union, List.mem_cons]
      constructor
      · rintro ((hx | hx) | hx)
        · split_ifs at hx with h1
          · exact ⟨e, Or.inl rfl, Or.inl ⟨h1, by simpa using hx⟩⟩
          · simp at hx
        · split_ifs at hx with h2
          · exact ⟨e, Or.inl rfl, Or.inr ⟨h2, by simpa using hx⟩⟩
          · simp at hx
        · obtain ⟨e2, he2, hc⟩ := ih.mp hx
          exact ⟨e2, Or.inr he2, hc⟩
      · rintro ⟨e2, (rfl | he2), hc⟩
        · rcases hc with ⟨h1, rfl⟩ | ⟨h2, rfl⟩
          · exact Or.inl (Or.inl (by simp [h1]))
          · exact Or.inl (Or.inr (by simp [h2]))
        · exact Or.inr (ih.mpr ⟨e2, he2, hc⟩)

theorem undirectedNeighbors_union (es : List GEdge) (S T : Finset Nat) :
    undirectedNeighbors es (S ∪ T) =
      undirectedNeighbors es S ∪ undirectedNeighbors es T := by
  ext x
  simp only [Finset.mem_union, mem_undirectedNeighbors]
  constructor
  · rintro ⟨e, he, (⟨hs, hx⟩ | ⟨hs, hx⟩)⟩
    · rcases hs with h | h
      · exact Or.inl ⟨e, he, Or.inl ⟨h, hx⟩⟩
      · exact Or.inr ⟨e, he, Or.inl ⟨h, hx⟩⟩
    · rcases hs with h | h
      · exact Or.inl ⟨e, he, Or.inr ⟨h, hx⟩⟩
      · exact Or.inr ⟨e, he, Or.inr ⟨h, hx⟩⟩
  · rintro (⟨e, he, (⟨hs, hx⟩ | ⟨hs, hx⟩)⟩ | ⟨e, he, (⟨hs, hx⟩ | ⟨hs, hx⟩)⟩)
    · exact ⟨e, he, Or.inl ⟨Or.inl hs, hx⟩⟩
    · exact ⟨e, he, Or.inr ⟨Or.inl hs, hx⟩⟩
    · exact ⟨e, he, Or.inl ⟨Or.inr hs, hx⟩⟩
    · exact ⟨e, he, Or.inr ⟨Or.inr hs, hx⟩⟩

theorem undirectedNeighbors_mono {es : List GEdge} {S T : Finset Nat}
    (h : S ⊆ T) :
    undirectedNeighbors es S ⊆ undirectedNeighbors es T := by
  intro x hx
  rw [mem_undirectedNeighbors] at *
  obtain ⟨e, he, hc⟩ := hx
  rcases hc with ⟨h1, h2⟩ | ⟨h1, h2⟩
  · exact ⟨e, he, Or.inl ⟨h h1, h2⟩⟩
  · exact ⟨e, he, Or.inr ⟨h h1, h2⟩⟩

theorem undirectedNeighbors_valid {g : KnowledgeGraph}
    (hedges : ∀ e ∈ g.edges, e.src < g.nodes.length ∧
      e.tgt < g.nodes.length)
    {S : Finset Nat} {x : Nat} (hx : x ∈ undirectedNeighbors g.edges S) :
    x < g.nodes.length := by
  rw [mem_undirectedNeighbors] at hx
  obtain ⟨e, he, hc⟩ := hx
  have := hedges e he
  rcases hc with ⟨_, h2⟩ | ⟨_, h2⟩ <;> omega

theorem mem_weightSet {g : KnowledgeGraph} {S : Finset Nat} {u : Uuid} :
    u ∈ weightSet g S ↔ ∃ n ∈ S, g.nodes.get? n = some u := by
  simp only [weightSet, Finset.mem_biUnion]
  refine exists_congr fun n => and_congr_right fun _ => ?_
  cases hg : g.nodes.get? n <;> simp [hg, eq_comm]

theorem weightSet_union (g : KnowledgeGraph) (S T : Finset Nat) :
    weightSet g (S ∪ T) = weightSet g S ∪ weightSet g T := by
  ext u
  simp only [mem_weightSet, Finset.mem_union]
  constructor
  · rintro ⟨n, hn, hg⟩
    rcases hn with h | h
    · exact Or.inl ⟨n, h, hg⟩
    · exact Or.inr ⟨n, h, hg⟩
  · rintro (⟨n, hn, hg⟩ | ⟨n, hn, hg⟩)
    · exact ⟨n, Or.inl hn, hg⟩
    · exact ⟨n, Or.inr hn, hg⟩

theorem subset_stepIdx (es : List GEdge) (S : Finset Nat) :
    S ⊆ stepIdx es S :=
  Finset.subset_union_left

theorem bfsLoop_eq_ball {g : KnowledgeGraph} (hnd : g.nodes.Nodup)
    (hedges : ∀ e ∈ g.edges, e.src < g.nodes.length ∧
      e.tgt < g.nodes.length) :
    ∀ (k : Nat) (cur U : Finset Nat),
      (∀ n ∈ U, n < g.nodes.length) →
      cur ⊆ U →
      stepIdx g.edges U = U ∪ undirectedNeighbors g.edges cur →
      bfsLoop g k cur (weightSet g U) =
        weightSet g ((stepIdx g.edges)^[k] U) := by
  intro k
  induction k with
  | zero => intro cur U _ _ _; rfl
  | succ k ih =>
      intro cur U hUval hcurU hfront
      have hnext : ((undirectedNeighbors g.edges cur).filter fun n =>
          freshIdx g (weightSet g U) n = true) =
          undirectedNeighbors g.edges cur \ U := by
        ext n
        simp only [Finset.mem_filter, Finset.mem_sdiff]
        refine and_congr_right fun hnN => ?_
        have hnval : n < g.nodes.length :=
          undirectedNeighbors_valid hedges hnN
        obtain ⟨u, hu⟩ : ∃ u, g.nodes.get? n = some u := by
          cases hg : g.nodes.get? n with
          | none =>
              rw [List.get?_eq_none] at hg
              omega
          | some u => exact ⟨u, rfl⟩
        rw [freshIdx, hu]
        simp only [decide_eq_true_eq]
        constructor
        · intro hnot hnU
          exact hnot (mem_weightSet.mpr ⟨n, hnU, hu⟩)
        · intro hnU hmem
          obtain ⟨m, hmU, hmu⟩ := mem_weightSet.mp hmem
          have hmval : m < g.nodes.length := hUval m hmU
          have : m = n := by
            apply List.getElem?_inj hmval hnd
            rw [← List.get?_eq_getElem?, ← List.get?_eq_getElem?, hmu, hu]
          exact hnU (this ▸ hmU)
      have hUN : U ∪ (undirectedNeighbors g.edges cur \ U) =
          stepIdx g.edges U := by
        rw [hfront]
        ext n
        simp only [Finset.mem_union, Finset.mem_sdiff]
        tauto
      have hvis2 : weightSet g U ∪
          weightSet g (undirectedNeighbors g.edges cur \ U) =
          weightSet g (stepIdx g.edges U) := by
        rw [← weightSet_union, hUN]
      simp only [bfsLoop]
      rw [hnext, hvis2]
      by_cases hempty : undirectedNeighbors g.edges cur \ U = ∅
      · rw [if_pos hempty]
        have hstep : stepIdx g.edges U = U := by
          rw [hfront]
          exact Finset.union_eq_left.mpr
            (Finset.sdiff_eq_empty_iff_subset.mp hempty)
        rw [Function.iterate_succ_apply, hstep]
        rw [Function.iterate_fixed hstep k]
      · rw [if_neg hempty]
        have harg1 : ∀ n ∈ stepIdx g.edges U, n < g.nodes.length := by
          intro n hn
          rcases Finset.mem_union.mp hn with h | h
          · exact hUval n h
          · exact undirectedNeighbors_valid hedges h
        have harg2 : undirectedNeighbors g.edges cur \ U ⊆
            stepIdx g.edges U := by
          rw [← hUN]
          exact Finset.subset_union_right
        have harg3 : stepIdx g.edges (stepIdx g.edges U) =
            stepIdx g.edges U ∪ undirectedNeighbors g.edges
              (undirectedNeighbors g.edges cur \ U) := by
          apply Finset.Subset.antisymm
          · intro x hx
            rcases Finset.mem_union.mp hx with hx | hx
            · exact Finset.mem_union_left _ hx
            · rw [hfront, undirectedNeighbors_union] at hx
              rcases Finset.mem_union.mp hx with hx | hx
              · exact Finset.mem_union_left _
                  (Finset.mem_union_right _ hx)
              · have hsplit : undirectedNeighbors g.edges cur ⊆
                    (undirectedNeighbors g.edges cur \ U) ∪ U := by
                  intro y hy
                  by_cases hyU : y ∈ U
                  · exact Finset.mem_union_right _ hyU
                  · exact Finset.mem_union_left _
                      (Finset.mem_sdiff.mpr ⟨hy, hyU⟩)
                have := undirectedNeighbors_mono hsplit hx
                rw [undirectedNeighbors_union] at this
                rcases Finset.mem_union.mp this with h | h
                · exact Finset.mem_union_right _ h
                · exact Finset.mem_union_left _
                    (Finset.mem_union_right _ h)
          · apply Finset.union_subset
            · exact subset_stepIdx _ _
            · intro x hx
              apply Finset.mem_union_right
              exact undirectedNeighbors_mono harg2 hx
        have := ih (undirectedNeighbors g.edges cur \ U)
          (stepIdx g.edges U) harg1 harg2 harg3
        rw [this, Function.iterate_succ_apply]

theorem subset_iterate_stepIdx (es : List GEdge) (k : Nat)
    (S : Finset Nat) : S ⊆ (stepIdx es)^[k] S := by
  induction k with
  | zero => exact subset_refl S
  | succ k ih =>
      rw [Function.iterate_succ_apply']
      exact ih.trans (subset_stepIdx es _)

/-- Claim C7, counterexample: an ID absent from the graph yields the
empty set — the start ID is not included, so the claim's unconditional
"including the start ID itself" fails as stated. -/
theorem c7_missing_start_not_included :
    "a" ∉ KnowledgeGraph.empty.get_neighbors "a" 1 := by
  simp [KnowledgeGraph.get_neighbors, KnowledgeGraph.empty, List.lookup]

/-- Claim C7 (amended): on a well-formed graph, `get_neighbors` of an
absent ID returns the empty set, and for a present ID it returns exactly
the weights of the indices within `hops` undirected edges of the start
(so the start ID is included and no returned ID is farther than `hops`
undirected edges from the start). -/
theorem c7_get_neighbors_bfs (g : KnowledgeGraph) (id : Uuid) (hops : Nat)
    (hwf : g.WellFormed) :
    (g.idToIndex.lookup id = none → g.get_neighbors id hops = ∅) ∧
    ∀ startIdx, g.idToIndex.lookup id = some startIdx →
      g.get_neighbors id hops =
        weightSet g (ballIdx g.edges hops {startIdx}) ∧
      id ∈ g.get_neighbors id hops := by
  obtain ⟨hnd, hmap, hedges⟩ := hwf
  constructor
  · intro hnone
    rw [KnowledgeGraph.get_neighbors, hnone]
  · intro s hs
    have hget : g.nodes.get? s = some id := by
      apply lookup_buildIndex_some
      rw [← hmap]
      exact hs
    have hslen : s < g.nodes.length := by
      by_contra hge
      push_neg at hge
      rw [List.get?_eq_none.mpr hge] at hget
      exact Option.noConfusion hget
    have hredef : g.get_neighbors id hops = bfsLoop g hops {s} {id} := by
      rw [KnowledgeGraph.get_neighbors, hs]
    have hget2 : g.nodes[s]? = some id := by
      rw [← List.get?_eq_getElem?]
      exact hget
    have hw0 : weightSet g {s} = {id} := by
      ext u
      simp [mem_weightSet, hget2, eq_comm]
    have hmain := bfsLoop_eq_ball hnd hedges hops {s} {s}
      (by intro n hn; simp at hn; omega)
      (subset_refl _) rfl
    rw [hw0] at hmain
    constructor
    · rw [hredef, hmain]
      rfl
    · rw [hredef, hmain]
      apply mem_weightSet.mpr
      exact ⟨s, subset_iterate_stepIdx g.edges hops {s} (by simp), hget⟩

/-- Claim C7 witness: the BFS from `"a"` in the concrete graph. -/
theorem c7_get_neighbors_bfs_witness :
    graphEx.WellFormed ∧ graphEx.idToIndex.lookup "a" = some 0 ∧
    (graphEx.get_neighbors "a" 1 =
        weightSet graphEx (ballIdx graphEx.edges 1 {0}) ∧
      "a" ∈ graphEx.get_neighbors "a" 1) :=
  ⟨⟨by decide, by decide, by decide⟩, by decide,
    (c7_get_neighbors_bfs graphEx "a" 1
        ⟨by decide, by decide, by decide⟩).2 0 (by decide)⟩
